import Mathlib

/-!
Verification development for the ARVIL assist pipeline
(`src/arvil/src/commands/assist.js`): the execution and remediation engine
that parses model output into fenced code blocks, classifies them, resolves
secret placeholders, materializes files, executes shell commands with a
safety gate, and drives the error-resolution loop.

Texts are modelled as `List Char` (the JS string payload).  JS regular
expressions used by the source are literal-alternative scans, modelled by
explicit leftmost scanning functions.  External collaborators (the OpenAI
call, the shell, the filesystem probes, and the filename-inference regex
over free prose) are parameters of an `Env` structure; everything else is
translated from the source.
-/

/-- Coerce a string literal to its character list. -/
def cs (s : String) : List Char := s.data

/-- Single-quote character (apostrophe), written numerically. -/
def sqc : Char := Char.ofNat 39

/-- Double-quote character. -/
def dqc : Char := Char.ofNat 34

/-- Backtick character. -/
def bq : Char := Char.ofNat 96

/-- Backslash character. -/
def bsl : Char := Char.ofNat 92

/-- Whitespace as recognised by JS `String.prototype.trim` (ASCII part). -/
def isJsWS (c : Char) : Bool :=
  c == ' ' || c == '\t' || c == '\n' || c == '\r' || c == Char.ofNat 11 || c == Char.ofNat 12

/-- JS `trim`: drop whitespace from both ends. -/
def trimL (s : List Char) : List Char :=
  ((s.dropWhile isJsWS).reverse.dropWhile isJsWS).reverse

/-- JS `String.prototype.includes`: `pat` occurs as a contiguous substring of `s`. -/
def containsSub (pat : List Char) : List Char → Bool
  | [] => pat.isEmpty
  | c :: rest => pat.isPrefixOf (c :: rest) || containsSub pat rest

/-- Leftmost-match scan: try `f` at every suffix, left to right (the way a JS
regex engine searches for the first position where the pattern matches). -/
def scanMatch {α : Type} (f : List Char → Option α) : List Char → Option α
  | [] => f []
  | c :: rest =>
    match f (c :: rest) with
    | some a => some a
    | none => scanMatch f rest

/-- JS `split('\n')`. -/
def splitNl : List Char → List (List Char)
  | [] => [[]]
  | c :: r =>
    match splitNl r with
    | [] => [[c]]
    | h :: t => if c = '\n' then [] :: h :: t else (c :: h) :: t

/-- JS `line.replace(/\s*\\$/, '')`: drop a trailing backslash together with
the whitespace immediately before it. -/
def stripTrailBack (l : List Char) : List Char :=
  if l.getLast? == some bsl then (l.dropLast.reverse.dropWhile isJsWS).reverse else l

/-- Command-block line splitting of the source: split on newlines, keep
non-blank non-comment lines, strip trailing line continuations. -/
def cmdLines (code : List Char) : List (List Char) :=
  ((splitNl code).filter
    (fun l => !(trimL l).isEmpty && !((cs "#").isPrefixOf (trimL l)))).map stripTrailBack

/-- POSIX `path.basename`: the part after the last slash. -/
def basenameL (p : List Char) : List Char :=
  (p.reverse.takeWhile (fun c => c ≠ '/')).reverse

/-- POSIX `path.dirname` (as used on the ENOENT fallback paths). -/
def dirnameL (p : List Char) : List Char :=
  let pre := p.take (p.length - (basenameL p).length)
  if pre.isEmpty then cs "." else if pre = ['/'] then ['/'] else pre.dropLast

/-- POSIX `path.join rel f` for a non-empty relative prefix. -/
def joinPath (a b : List Char) : List Char :=
  if a.isEmpty then b else a ++ '/' :: b

/-- One fuel-indexed step list for global literal-alternative replacement:
at every position try the literal patterns in order (longest first models the
greedy optional groups of the source regexes); on a match emit the
replacement and continue after the matched text, exactly as a JS
`String.replace(/…/g, rep)` does.  The fuel starts at the text length and
never runs out on non-empty patterns. -/
def replaceAllAltGo (pats : List (List Char)) (rep : List Char) : Nat → List Char → List Char
  | 0, s => s
  | _ + 1, [] => []
  | f + 1, c :: rest =>
    match (pats.find? (fun p => !p.isEmpty && p.isPrefixOf (c :: rest))) with
    | some p => rep ++ replaceAllAltGo pats rep f ((c :: rest).drop p.length)
    | none => c :: replaceAllAltGo pats rep f rest

/-- Global replacement wrapper. -/
def replaceAllAlt (pats : List (List Char)) (rep : List Char) (s : List Char) : List Char :=
  replaceAllAltGo pats rep s.length s

/-- JS `s.replace(/KEY….*$/m, key ++ v)` for a literal `key`: rewrite from the
first occurrence of `key` through the end of that line. -/
def replaceFirstKeyLine (key v : List Char) : List Char → List Char
  | [] => []
  | c :: rest =>
    if key.isPrefixOf (c :: rest) then
      key ++ v ++ ((c :: rest).drop key.length).dropWhile (fun x => x ≠ '\n')
    else c :: replaceFirstKeyLine key v rest

/-! ## Artifact Parser (`extractCodeBlocks`) -/

/-- A parsed fenced code block: language tag and trimmed content. -/
structure Block where
  language : List Char
  code : List Char
deriving DecidableEq

/-- Split a text at the first occurrence of a closing triple backtick,
returning the content before it and the remainder after it (the lazy
`[\s\S]*?` of the source regex). -/
def findClose : List Char → Option (List Char × List Char)
  | [] => none
  | c :: rest =>
    if (cs "```").isPrefixOf (c :: rest) then some ([], (c :: rest).drop 3)
    else
      match findClose rest with
      | some (a, b) => some (c :: a, b)
      | none => none

/-- Leftmost scan for `/```([a-zA-Z0-9]*)\n([\s\S]*?)```/g`: at each position
try to match an opening fence (three backticks, a greedy alphanumeric tag, a
newline), then the lazy content up to the next triple backtick.  On a match
the scan resumes after the closing fence; otherwise it advances one
character, as a JS global regex does.  Matched blocks carry their start
position; empty-after-trim content is dropped (`if (code.trim())`).  The
fuel is the text length, which the scan can never exhaust. -/
def scanGo : Nat → Nat → List Char → List (Nat × Block)
  | 0, _, _ => []
  | _ + 1, _, [] => []
  | f + 1, pos, c :: rest =>
    if (cs "```").isPrefixOf (c :: rest) then
      let after := (c :: rest).drop 3
      let tag := after.takeWhile Char.isAlphanum
      let after2 := after.drop tag.length
      match after2 with
      | '\n' :: body =>
        (match findClose body with
         | some (content, rest2) =>
           let code := trimL content
           let blk : Block := ⟨(trimL tag).map Char.toLower, code⟩
           let consumed := (c :: rest).length - rest2.length
           (if code.isEmpty then [] else [(pos, blk)]) ++ scanGo f (pos + consumed) rest2
         | none => scanGo f (pos + 1) rest)
      | _ => scanGo f (pos + 1) rest
    else scanGo f (pos + 1) rest

/-- The parser together with the source position of every match. -/
def extractCodeBlocksPos (s : List Char) : List (Nat × Block) :=
  scanGo s.length 0 s

/-- `extractCodeBlocks` of the source: fenced blocks in source order. -/
def extractCodeBlocks (s : List Char) : List Block :=
  (extractCodeBlocksPos s).map Prod.snd

/-! ## Artifact Classifier (the two filters of `autoProcessCodeBlocks`) -/

/-- `['bash', 'shell', 'sh', ''].includes(block.language)`. -/
def isBashOrShell (b : Block) : Bool :=
  b.language == cs "bash" || b.language == cs "shell" || b.language == cs "sh" ||
    b.language == []

/-- Untagged content whose trimmed code starts with a known shell verb. -/
def looksLikeCmd (b : Block) : Bool :=
  b.language == [] &&
    ((cs "npm ").isPrefixOf (trimL b.code) || (cs "node ").isPrefixOf (trimL b.code) ||
      (cs "cd ").isPrefixOf (trimL b.code) || (cs "mkdir ").isPrefixOf (trimL b.code))

/-- Filter used for the command phase: `isBashOrShell || looksLikeCommand`. -/
def commandBlockPred (b : Block) : Bool :=
  isBashOrShell b || looksLikeCmd b

/-- Filter used for the file phase: `!isBashOrShell && !looksLikeCommand`. -/
def fileBlockPred (b : Block) : Bool :=
  !isBashOrShell b && !looksLikeCmd b

/-! ## Placeholder Resolver (`detectAndPromptForPlaceholders`, `replacePlaceholders`) -/

/-- Session bindings for the four placeholder kinds.  JS keeps them in a
plain object; an absent or empty value is falsy, so `[]` models "unbound"
exactly as the `if (placeholderValues.x)` guards of the source do. -/
structure PlaceholderValues where
  private_key : List Char := []
  api_key : List Char := []
  wallet_address : List Char := []
  rpc_endpoint : List Char := []
deriving DecidableEq

/-- Literal alternatives of `/\[YourPrivateKey(?:Array)?\]/g` (greedy first). -/
def pkBracketPats : List (List Char) :=
  [cs "[YourPrivateKeyArray]", cs "[YourPrivateKey]"]

/-- Build the quote-wrapped literal alternatives `q1 ++ mid ++ q2` of a
`/['"]…['"]/` pattern, longest middle first. -/
def quotedPats (mids : List (List Char)) : List (List Char) :=
  mids.foldr
    (fun m acc =>
      (sqc :: m ++ [sqc]) :: (sqc :: m ++ [dqc]) :: (dqc :: m ++ [sqc]) ::
        (dqc :: m ++ [dqc]) :: acc)
    []

/-- Middles of `/['"]your_(?:actual_)?private_key(?:_array)?_here['"]/g`. -/
def pkQuotedMids : List (List Char) :=
  [cs "your_actual_private_key_array_here", cs "your_actual_private_key_here",
   cs "your_private_key_array_here", cs "your_private_key_here"]

/-- Literal alternatives of `/\[YourAPIKey\]/g`. -/
def apiBracketPats : List (List Char) := [cs "[YourAPIKey]"]

/-- Middles of `/['"]your_api_key(?:_here)?['"]/g`. -/
def apiQuotedMids : List (List Char) := [cs "your_api_key_here", cs "your_api_key"]

/-- Literal alternatives of `/\[YourWalletAddress\]/g`. -/
def walletBracketPats : List (List Char) := [cs "[YourWalletAddress]"]

/-- Middles of `/['"]your_wallet_address(?:_here)?['"]/g`. -/
def walletQuotedMids : List (List Char) :=
  [cs "your_wallet_address_here", cs "your_wallet_address"]

/-- Literal alternatives of `/\[YourRPCEndpoint\]/g`. -/
def rpcBracketPats : List (List Char) := [cs "[YourRPCEndpoint]"]

/-- Middles of `/['"]your_rpc_endpoint(?:_here)?['"]/g`. -/
def rpcQuotedMids : List (List Char) := [cs "your_rpc_endpoint_here", cs "your_rpc_endpoint"]

/-- One kind's replacement pass of `replacePlaceholders`: the bracket
patterns are replaced by the raw value, the quoted sentinels by the value in
double quotes, and the first `KEY=` line is rewritten to `KEY=value` —
skipped entirely when the kind is unbound (falsy guard). -/
def kindPass (v : List Char) (brackets : List (List Char)) (mids : List (List Char))
    (key : List Char) (r : List Char) : List Char :=
  if v.isEmpty then r
  else
    replaceFirstKeyLine key v
      (replaceAllAlt (quotedPats mids) (dqc :: v ++ [dqc]) (replaceAllAlt brackets v r))

/-- `replacePlaceholders(code, placeholderValues)` of the source: the four
kind passes applied in source order. -/
def replacePlaceholders (code : List Char) (pv : PlaceholderValues) : List Char :=
  kindPass pv.rpc_endpoint rpcBracketPats rpcQuotedMids (cs "RPC_ENDPOINT=")
    (kindPass pv.wallet_address walletBracketPats walletQuotedMids (cs "WALLET_ADDRESS=")
      (kindPass pv.api_key apiBracketPats apiQuotedMids (cs "API_KEY=")
        (kindPass pv.private_key pkBracketPats pkQuotedMids (cs "PRIVATE_KEY=") code)))

/-- The placeholder kinds of the catalog. -/
inductive PKind
  | private_key
  | api_key
  | wallet_address
  | rpc_endpoint
deriving DecidableEq

/-- Read the binding of one kind. -/
def PlaceholderValues.get (pv : PlaceholderValues) : PKind → List Char
  | .private_key => pv.private_key
  | .api_key => pv.api_key
  | .wallet_address => pv.wallet_address
  | .rpc_endpoint => pv.rpc_endpoint

/-- Set the binding of one kind. -/
def PlaceholderValues.set (pv : PlaceholderValues) : PKind → List Char → PlaceholderValues
  | .private_key, v => { pv with private_key := v }
  | .api_key, v => { pv with api_key := v }
  | .wallet_address, v => { pv with wallet_address := v }
  | .rpc_endpoint, v => { pv with rpc_endpoint := v }

/-- Does any of the literal alternatives occur in `s`? (JS `regex.test`). -/
def containsAny (pats : List (List Char)) (s : List Char) : Bool :=
  pats.any (fun p => containsSub p s)

/-- The `patterns` table of `detectAndPromptForPlaceholders`, in source
order: each entry is the pattern's literal alternatives and its kind. -/
def placeholderTable : List (List (List Char) × PKind) :=
  [(pkBracketPats, .private_key), (quotedPats pkQuotedMids, .private_key),
   (apiBracketPats, .api_key), (quotedPats apiQuotedMids, .api_key),
   (walletBracketPats, .wallet_address), (quotedPats walletQuotedMids, .wallet_address),
   (rpcBracketPats, .rpc_endpoint), (quotedPats rpcQuotedMids, .rpc_endpoint)]

/-- JS `join('\n')`. -/
def joinNl : List (List Char) → List Char
  | [] => []
  | [l] => l
  | l :: r => l ++ '\n' :: joinNl r

/-- Fold of the detection loop: for each table entry whose pattern matches
the concatenated code or the full response, if the kind is still unbound,
prompt the operator (recorded in the prompt list) and bind the returned
value; a kind already bound is never prompted again. -/
def detectGo (oracle : PKind → List Char) (allCode aiResponse : List Char) :
    List (List (List Char) × PKind) → PlaceholderValues → List PKind →
      PlaceholderValues × List PKind
  | [], pv, prompts => (pv, prompts)
  | (pats, k) :: rest, pv, prompts =>
    if containsAny pats allCode || containsAny pats aiResponse then
      if (pv.get k).isEmpty then
        detectGo oracle allCode aiResponse rest (pv.set k (oracle k)) (prompts ++ [k])
      else detectGo oracle allCode aiResponse rest pv prompts
    else detectGo oracle allCode aiResponse rest pv prompts

/-- `detectAndPromptForPlaceholders(aiResponse, codeBlocks)`: the operator is
modelled by an oracle giving the (validated) value for each kind; the result
is the binding set plus the list of kinds that were prompted. -/
def detectAndPromptForPlaceholders (oracle : PKind → List Char) (aiResponse : List Char)
    (codeBlocks : List Block) : PlaceholderValues × List PKind :=
  detectGo oracle (joinNl (codeBlocks.map Block.code)) aiResponse placeholderTable {} []

/-! ## File Materializer path handling (`autoProcessCodeBlocks` lines 389-410) -/

/-- The path-awareness step of `autoProcessCodeBlocks` applied to a resolved
filename.  `inProject` is whether `projectInfo` was detected;
`cwdEqProjectRoot` is `process.cwd() === projectInfo.path`;
`relToProject` is `path.relative(projectInfo.path, process.cwd())`,
supplied by the environment.  Only a relative filename starting with `..`
inside a detected project is rewritten to its base name; everything else
passes through to `createFile` unchanged. -/
def resolveTargetFilename (inProject : Bool) (cwdEqProjectRoot : Bool)
    (relToProject : List Char) (filename : List Char) : List Char :=
  if inProject && !((cs "/").isPrefixOf filename) then
    if !((cs "/").isPrefixOf filename) then
      let f1 := if (cs "..").isPrefixOf filename then basenameL filename else filename
      if !cwdEqProjectRoot && !((cs "..").isPrefixOf relToProject) then
        joinPath relToProject f1
      else f1
    else filename
  else filename

/-! ## Deterministic fallback handlers -/

/-- The `/Cannot find module '([^']+)'/` extraction of `handleNpmErrors`:
leftmost position where the literal prefix, a non-empty quote-free name and
the closing quote all match. -/
def findModuleName (e : List Char) : Option (List Char) :=
  scanMatch
    (fun s =>
      if (cs "Cannot find module " ++ [sqc]).isPrefixOf s then
        let t := s.drop (cs "Cannot find module " ++ [sqc]).length
        let nm := t.takeWhile (fun c => c ≠ sqc)
        if !nm.isEmpty && (t.drop nm.length).head? == some sqc then some nm else none
      else none)
    e

/-- The command choices of `handleNpmErrors(errorMessage)`, in branch
order: permission fix, missing-manifest fix, missing-module install (no
command at all when the module-name regex fails), and the
cache-clear-and-reinstall default. -/
def npmFixCommands (e : List Char) : List (List Char) :=
  if containsSub (cs "EACCES") e || containsSub (cs "permission denied") e then
    [cs "mkdir -p ~/.npm-global", cs "npm config set prefix ~/.npm-global", cs "npm install"]
  else if containsSub (cs "ENOENT") e && containsSub (cs "package.json") e then
    [cs "npm init -y"]
  else if containsSub (cs "Cannot find module") e then
    match findModuleName e with
    | some m => [cs "npm install " ++ m ++ cs " --save"]
    | none => []
  else [cs "npm cache clean --force", cs "npm install"]

/-- The `/ENOENT: no such file or directory[^']*'([^']+)'/` extraction of
`handleFileErrors`. -/
def enoentPath (e : List Char) : Option (List Char) :=
  scanMatch
    (fun s =>
      if (cs "ENOENT: no such file or directory").isPrefixOf s then
        let t := (s.drop (cs "ENOENT: no such file or directory").length).dropWhile
          (fun c => c ≠ sqc)
        match t with
        | [] => none
        | _ :: t2 =>
          let nm := t2.takeWhile (fun c => c ≠ sqc)
          if !nm.isEmpty && (t2.drop nm.length).head? == some sqc then some nm else none
      else none)
    e

/-- Does `path.extname` return a non-empty extension? (a dot inside the base
name past its first character). -/
def extnameNonempty (p : List Char) : Bool :=
  ((basenameL p).drop 1).contains '.'

/-! ## Executor, error-resolution loop and session events -/

/-- Result of one shell invocation as observed by `executeCommand`:
`execAsync` either resolves with (stdout, stderr) or throws with a message. -/
inductive ShellRes
  | ok (stdout stderr : List Char)
  | fail (message : List Char)

/-- Return value of `executeCommand` (`{ success, output, error }`).  For a
`.acts` loop call the same record is reused as a completion marker:
`success = true` encodes the early `Fix successfully applied!` return. -/
structure ExecRes where
  success : Bool
  output : List Char
  error : List Char
deriving DecidableEq

/-- Observable events of a session: commands passed to the shell, files
written, skip notices, fallback activity. -/
inductive Event
  | ran (cmd : List Char)
  | skippedDanger (cmd : List Char)
  | skippedExample (cmd : List Char)
  | skippedDup (cmd : List Char)
  | hashDedupHit
  | fixApplied
  | wrote (name content : List Char)
  | wroteConfig (name : List Char)
  | madeDir (p : List Char)
  | wroteEmpty (p : List Char)
  | manualResolutionNeeded
deriving DecidableEq

/-- A pending step of a command/file application loop. -/
inductive SessAction
  | runCmd (c : List Char)
  | writeF (name content : List Char)
  | note (e : Event)
deriving DecidableEq

/-- External collaborators: the generation service, the shell, the
filename-inference regexes over the solution prose, and filesystem
probes used by the deterministic handlers. -/
structure Env where
  ai : List Char → List Char → Option (List Char)
  shell : List Char → ShellRes
  filenameFromSolution : List Char → Option (List Char)
  hasEslintConfigJs : Bool
  hasEslintRcAny : Bool
  hasPackageJson : Bool
  packageJsonHasType : Bool
  fsExists : List Char → Bool

/-- Filename inference for a file-kind fix block in
`attemptErrorResolution`: the three prose matchers (an environment regex),
then the language-based fallback switch of the source. -/
def inferFixFilename (E : Env) (sol : List Char) (b : Block) : List Char :=
  match E.filenameFromSolution sol with
  | some f => f
  | none =>
    if b.language == cs "javascript" || b.language == cs "js" then cs "fix.js"
    else if b.language == cs "json" then cs "config.json"
    else if b.language == cs "env" || b.language == cs "plaintext" then
      (if containsSub (cs "=") b.code then cs ".env" else cs "fix.txt")
    else if b.language == [] then cs "fix.txt"
    else cs "fix." ++ b.language

/-- The `ESLint couldn't find an eslint.config` signature literal. -/
def eslintCfgMissing : List Char :=
  cs "ESLint couldn" ++ [sqc] ++ cs "t find an eslint.config"

/-- Filesystem writes of `handleEslintErrors`.  The local
`eslintFixApproach` set of the source is created empty and consulted once
per branch in a single pass of the if/else chain, so each `!has(...)` guard
is true and the chain reduces to its conditions on the error text and the
existing configuration files. -/
def eslintFixEvents (E : Env) (err : List Char) : List Event :=
  if containsSub eslintCfgMissing err || containsSub (cs "ESLint") err ||
      containsSub (cs "eslint") err then
    if containsSub eslintCfgMissing err then
      Event.wroteConfig (cs "eslint.config.js") ::
        (if E.hasPackageJson && !E.packageJsonHasType then
          [Event.wroteConfig (cs "package.json")]
        else [])
    else if containsSub (cs "eslintrc") err || !E.hasEslintConfigJs then
      (if !E.hasEslintRcAny then [Event.wroteConfig (cs ".eslintrc.json")] else [])
    else if E.hasPackageJson then [Event.wroteConfig (cs "package.json")]
    else []
  else []

/-- Filesystem writes of `handleFileErrors`: create the missing directory,
and an empty file only when the missing path carries an extension.  This
handler runs no commands. -/
def fileFixEvents (E : Env) (err : List Char) : List Event :=
  match enoentPath err with
  | none => []
  | some p =>
    (if !E.fsExists (dirnameL p) then [Event.madeDir (dirnameL p)] else []) ++
      (if extnameNonempty p then [Event.wroteEmpty p] else [])

/-- Flatten the fix-application loop of `attemptErrorResolution` into
actions: shell-family blocks are split into lines, each line skipped when it
contains a superuser or recursive-delete invocation or when the local
`executedCommands` set (the accumulator, fresh per call) already holds it;
file-kind blocks become writes of the inferred filename.  No placeholder
substitution happens on this path. -/
def fixLineActs : List (List Char) → List (List Char) → List SessAction × List (List Char)
  | [], acc => ([], acc)
  | l :: ls, acc =>
    if containsSub (cs "sudo ") l || containsSub (cs "rm -rf") l then
      let (as, acc2) := fixLineActs ls acc
      (.note (.skippedDanger l) :: as, acc2)
    else if l ∈ acc then
      let (as, acc2) := fixLineActs ls acc
      (.note (.skippedDup l) :: as, acc2)
    else
      let (as, acc2) := fixLineActs ls (l :: acc)
      (.runCmd l :: as, acc2)

/-- Block loop of the fix application (see `fixLineActs`). -/
def fixActs (inferName : Block → List Char) : List Block → List (List Char) → List SessAction
  | [], _ => []
  | b :: bs, acc =>
    if isBashOrShell b then
      let (as, acc2) := fixLineActs (cmdLines b.code) acc
      as ++ fixActs inferName bs acc2
    else .writeF (inferName b) b.code :: fixActs inferName bs acc

/-- Flatten the command phase of `autoProcessCodeBlocks`: a block containing
a superuser or recursive-delete invocation is skipped whole; surviving lines
get placeholder substitution, then are skipped when they still carry a
private-key example token or when the local `executedCommands` set already
holds them. -/
def autoLineActs (pv : PlaceholderValues) :
    List (List Char) → List (List Char) → List SessAction × List (List Char)
  | [], acc => ([], acc)
  | l :: ls, acc =>
    let c := replacePlaceholders l pv
    if containsSub (cs "[YourPrivateKey") c ||
        containsSub (cs "your_actual_private_key_here") c then
      let (as, acc2) := autoLineActs pv ls acc
      (.note (.skippedExample c) :: as, acc2)
    else if c ∈ acc then
      let (as, acc2) := autoLineActs pv ls acc
      (.note (.skippedDup c) :: as, acc2)
    else
      let (as, acc2) := autoLineActs pv ls (c :: acc)
      (.runCmd c :: as, acc2)

/-- Block loop of the auto command phase (see `autoLineActs`). -/
def autoCmdActs (pv : PlaceholderValues) : List Block → List (List Char) → List SessAction
  | [], _ => []
  | b :: bs, acc =>
    if containsSub (cs "sudo ") b.code || containsSub (cs "rm -rf") b.code then
      .note (.skippedDanger b.code) :: autoCmdActs pv bs acc
    else
      let (as, acc2) := autoLineActs pv (cmdLines b.code) acc
      as ++ autoCmdActs pv bs acc2

/-- The commands an action list passes to the shell, in order. -/
def cmdsOfActs (acts : List SessAction) : List (List Char) :=
  acts.filterMap (fun a => match a with | .runCmd c => some c | _ => none)

/-- The mutually recursive entry points of the engine:
`executeCommand` (`exec`), `attemptErrorResolution` (`resolve`), the fix /
command application loops (`acts`), `handleCommonErrors` (`common`),
`handleNpmErrors` (`npmFix`), `handleEslintErrors` (`eslintFix`) and
`handleFileErrors` (`fileFix`). -/
inductive Call
  | exec (cmd : List Char)
  | resolve (failedCommand errorMessage : List Char)
  | acts (earlyStop : Bool) (failedCommand : List Char) (actions : List SessAction)
  | common (failedCommand errorMessage : List Char)
  | npmFix (errorMessage : List Char)
  | eslintFix (errorMessage : List Char)
  | fileFix (failedCommand errorMessage : List Char)

/-- Completion marker for calls that return no command result. -/
def doneRes : ExecRes := ⟨false, [], []⟩

/-- Depth-fuelled interpreter of the engine.  Every JS `await` into another
engine function spends one unit of fuel; `([], none)`-style results with a
`none` outcome mean the fuel ran out with the recursion still going — the
events gathered so far are kept.  The interpreter follows the source:

* `exec`: records the command, and on a thrown error — or on a stderr
  carrying an `Error:`/`error:`/`fatal:` signature — re-enters
  `attemptErrorResolution` before returning `{ success, output, error }`;
* `resolve`: asks the generation service; with no usable code blocks (or a
  service failure) it falls back to `common`.  Its `attemptedSolutions` set
  is a fresh local, so the dedup membership test compares against the empty
  set; the fix blocks are then applied with the early
  `Fix successfully applied!` return, and afterwards the `ESLint` /
  `npm ERR!` targeted handlers run;
* `acts`: sequential application of flattened actions, aborting on fuel
  exhaustion, with the optional early-return test of the fix loop;
* `common`/`npmFix`/`eslintFix`/`fileFix`: the deterministic fallback
  handlers, whose commands go back through `exec`. -/
def run (E : Env) : Nat → Call → List Event × Option ExecRes
  | 0, _ => ([], none)
  | n + 1, .exec cmd =>
    (match E.shell cmd with
     | .ok out err =>
       if !err.isEmpty && (containsSub (cs "Error:") err || containsSub (cs "error:") err ||
           containsSub (cs "fatal:") err) then
         let o := run E n (.resolve cmd err)
         (.ran cmd :: o.1, match o.2 with | none => none | some _ => some ⟨true, out, err⟩)
       else ([.ran cmd], some ⟨true, out, err⟩)
     | .fail msg =>
       let o := run E n (.resolve cmd msg)
       (.ran cmd :: o.1, match o.2 with | none => none | some _ => some ⟨false, [], msg⟩))
  | n + 1, .resolve c e =>
    (match E.ai c e with
     | none => run E n (.common c e)
     | some sol =>
       let blocks := extractCodeBlocks sol
       if blocks.isEmpty then run E n (.common c e)
       else
         let solutionHash := blocks.map Block.code
         if ([] : List (List (List Char))).contains solutionHash then
           let o := run E n (.common c e)
           (.hashDedupHit :: o.1, o.2)
         else
           let o := run E n (.acts true c (fixActs (inferFixFilename E sol) blocks []))
           match o.2 with
           | none => o
           | some r =>
             if r.success then o
             else if containsSub (cs "ESLint") e then
               let o2 := run E n (.eslintFix e)
               (o.1 ++ o2.1, o2.2)
             else if containsSub (cs "npm ERR!") e then
               let o2 := run E n (.npmFix e)
               (o.1 ++ o2.1, o2.2)
             else o)
  | _ + 1, .acts _ _ [] => ([], some doneRes)
  | n + 1, .acts early fc (.note ev :: rest) =>
    let o := run E n (.acts early fc rest)
    (ev :: o.1, o.2)
  | n + 1, .acts early fc (.writeF name content :: rest) =>
    let o := run E n (.acts early fc rest)
    (.wrote name content :: o.1, o.2)
  | n + 1, .acts early fc (.runCmd c :: rest) =>
    let o1 := run E n (.exec c)
    (match o1.2 with
     | none => o1
     | some r =>
       if early && r.success && (containsSub fc c ||
           containsSub (cs "0 vulnerabilities") r.output || r.error.isEmpty) then
         (o1.1 ++ [.fixApplied], some ⟨true, [], []⟩)
       else
         let o := run E n (.acts early fc rest)
         (o1.1 ++ o.1, o.2))
  | n + 1, .common c e =>
    if containsSub (cs "ESLint") e && containsSub (cs "eslint.config") e then
      run E n (.eslintFix e)
    else if containsSub (cs "npm ERR!") e || containsSub (cs "npm install") c then
      run E n (.npmFix e)
    else if containsSub (cs "ENOENT") e || containsSub (cs "permission denied") e then
      run E n (.fileFix c e)
    else ([.manualResolutionNeeded], some doneRes)
  | n + 1, .npmFix e => run E n (.acts false [] ((npmFixCommands e).map .runCmd))
  | n + 1, .eslintFix e =>
    let o := run E n (.exec (cs "npm install eslint --save-dev"))
    (eslintFixEvents E e ++ o.1, match o.2 with | none => none | some _ => some doneRes)
  | _ + 1, .fileFix _ e => (fileFixEvents E e, some doneRes)

/-- Did the shell reject this command? (`execAsync` threw). -/
def shellFails (E : Env) (c : List Char) : Bool :=
  match E.shell c with
  | .fail _ => true
  | _ => false

/-- The command phase of `autoProcessCodeBlocks`: flatten the command blocks
(with the safety gate, example skip and session dedup), run them, and — when
any of them failed — re-enter `attemptErrorResolution` once with the
synthetic `auto-process` context and the joined failure messages, exactly as
the source's `errorsOccurred` branch does. -/
def autoProcessCommands (E : Env) (fuel : Nat) (blocks : List Block)
    (pv : PlaceholderValues) : List Event × Option ExecRes :=
  let acts := autoCmdActs pv blocks []
  let o := run E fuel (.acts false [] acts)
  match o.2 with
  | none => (o.1, none)
  | some _ =>
    let failed := (cmdsOfActs acts).filter (shellFails E)
    if failed.isEmpty then o
    else
      let msgs := joinNl (failed.map (fun c => cs "Command failed: " ++ c))
      let o2 := run E fuel (.resolve (cs "auto-process") msgs)
      (o.1 ++ o2.1, o2.2)

/-- The commands an event trace passed to the shell, in order. -/
def ranCmds (evs : List Event) : List (List Char) :=
  evs.filterMap (fun e => match e with | .ran c => some c | _ => none)

/-- How many shell-rejected commands a trace contains: the amount by which
`executionStats.commands.failed` grows over the trace. -/
def failedRanCount (E : Env) (evs : List Event) : Nat :=
  ((ranCmds evs).filter (shellFails E)).length

/-! ## Lemmas about substitution -/

theorem containsSub_cons_false {pat c : _} {rest : List Char}
    (h : containsSub pat (c :: rest) = false) :
    pat.isPrefixOf (c :: rest) = false ∧ containsSub pat rest = false := by
  simpa [containsSub] using h

theorem replaceAllAltGo_id (pats : List (List Char)) (rep : List Char) :
    ∀ f s, (∀ p ∈ pats, containsSub p s = false) → replaceAllAltGo pats rep f s = s := by
  intro f
  induction f with
  | zero => intro s _; rfl
  | succ f ih =>
    intro s h
    match s with
    | [] => rfl
    | c :: rest =>
      have hf : pats.find? (fun p => !p.isEmpty && p.isPrefixOf (c :: rest)) = none := by
        refine List.find?_eq_none.mpr (fun p hp => ?_)
        have := (containsSub_cons_false (h p hp)).1
        simp [this]
      have hrest : ∀ p ∈ pats, containsSub p rest = false := fun p hp =>
        (containsSub_cons_false (h p hp)).2
      simp [replaceAllAltGo, hf, ih rest hrest]

theorem replaceAllAlt_id (pats : List (List Char)) (rep s : List Char)
    (h : ∀ p ∈ pats, containsSub p s = false) : replaceAllAlt pats rep s = s :=
  replaceAllAltGo_id pats rep s.length s h

theorem replaceFirstKeyLine_id (key v : List Char) :
    ∀ s, containsSub key s = false → replaceFirstKeyLine key v s = s := by
  intro s
  induction s with
  | nil => intro _; rfl
  | cons c rest ih =>
    intro h
    obtain ⟨h1, h2⟩ := containsSub_cons_false h
    simp [replaceFirstKeyLine, h1, ih h2]

/-- Freeness of one kind: either the kind is unbound, or none of its
bracket/quoted patterns nor its `KEY=` marker occurs in the text. -/
def kindFree (v : List Char) (brackets mids : List (List Char)) (key : List Char)
    (s : List Char) : Bool :=
  v.isEmpty ||
    ((brackets ++ quotedPats mids).all (fun p => !containsSub p s) && !containsSub key s)

/-- Freeness of a text with respect to every bound kind of a binding set. -/
def pvFree (pv : PlaceholderValues) (s : List Char) : Bool :=
  kindFree pv.private_key pkBracketPats pkQuotedMids (cs "PRIVATE_KEY=") s &&
    kindFree pv.api_key apiBracketPats apiQuotedMids (cs "API_KEY=") s &&
    kindFree pv.wallet_address walletBracketPats walletQuotedMids (cs "WALLET_ADDRESS=") s &&
    kindFree pv.rpc_endpoint rpcBracketPats rpcQuotedMids (cs "RPC_ENDPOINT=") s

theorem kindPass_id (v : List Char) (brackets mids : List (List Char)) (key s : List Char)
    (h : kindFree v brackets mids key s = true) : kindPass v brackets mids key s = s := by
  by_cases hv : v.isEmpty
  · simp [kindPass, hv]
  · have h2 : ((brackets ++ quotedPats mids).all (fun p => !containsSub p s) &&
        !containsSub key s) = true := by
      simpa [kindFree, hv] using h
    have hall := (Bool.and_eq_true _ _ |>.mp h2).1
    have hkey : containsSub key s = false := by
      have := (Bool.and_eq_true _ _ |>.mp h2).2
      simpa using this
    have hb : ∀ p ∈ brackets, containsSub p s = false := by
      intro p hp
      have := List.all_eq_true.mp hall p (List.mem_append_left _ hp)
      simpa using this
    have hq : ∀ p ∈ quotedPats mids, containsSub p s = false := by
      intro p hp
      have := List.all_eq_true.mp hall p (List.mem_append_right _ hp)
      simpa using this
    simp [kindPass, hv, replaceAllAlt_id _ _ _ hb, replaceAllAlt_id _ _ _ hq,
      replaceFirstKeyLine_id _ _ _ hkey]

/-! ## C8: substitution — purity, conditional idempotence, counterexample -/

/-- C8 (amended): `replacePlaceholders` is a pure function of text and
bindings; with an empty binding set it is the identity on every text; and
whenever the substituted output contains no occurrence of any bound kind's
bracket or quoted patterns nor its `KEY=` marker, a second application
changes nothing.  (Unconditional idempotence, and non-interference with an
unbound kind's patterns, fail; see the counterexample.) -/
theorem replacePlaceholders_conditional_idempotence :
    (∀ t, replacePlaceholders t {} = t) ∧
    (∀ t pv, pvFree pv (replacePlaceholders t pv) = true →
      replacePlaceholders (replacePlaceholders t pv) pv = replacePlaceholders t pv) := by
  constructor
  · intro t
    simp [replacePlaceholders, kindPass]
  · intro t pv h
    have h1 := (Bool.and_eq_true _ _ |>.mp h).2
    have h0 := (Bool.and_eq_true _ _ |>.mp h).1
    have h2 := (Bool.and_eq_true _ _ |>.mp h0).2
    have h00 := (Bool.and_eq_true _ _ |>.mp h0).1
    have h3 := (Bool.and_eq_true _ _ |>.mp h00).2
    have h4 := (Bool.and_eq_true _ _ |>.mp h00).1
    set s := replacePlaceholders t pv with hs
    calc replacePlaceholders s pv
        = s := by
          show kindPass pv.rpc_endpoint _ _ _ (kindPass pv.wallet_address _ _ _
            (kindPass pv.api_key _ _ _ (kindPass pv.private_key _ _ _ s))) = s
          rw [kindPass_id _ _ _ _ _ h4, kindPass_id _ _ _ _ _ h3,
            kindPass_id _ _ _ _ _ h2, kindPass_id _ _ _ _ _ h1]

/-- Witness for C8: a concrete substitution whose output is placeholder-free
is a fixed point of a second application. -/
theorem replacePlaceholders_conditional_idempotence_witness :
    replacePlaceholders (replacePlaceholders (cs "[YourAPIKey] x") { api_key := cs "k" })
        { api_key := cs "k" } =
      replacePlaceholders (cs "[YourAPIKey] x") { api_key := cs "k" } := by
  exact replacePlaceholders_conditional_idempotence.2 (cs "[YourAPIKey] x")
    { api_key := cs "k" } (by decide)

/-- Binding whose value itself contains a placeholder pattern. -/
def pvSelfRef : PlaceholderValues := { api_key := cs "x[YourAPIKey]" }

/-- A text holding an unbound private-key quoted sentinel inside an
`API_KEY=` line. -/
def apiLineWithPkSentinel : List Char :=
  cs "API_KEY=" ++ sqc :: cs "your_private_key_here" ++ [sqc]

/-- The private-key quoted sentinel (single-quoted form). -/
def pkSentinelQuoted : List Char := sqc :: cs "your_private_key_here" ++ [sqc]

/-- Counterexample for C8: substitution is not idempotent (a second
application changes the text again when the bound value contains a
placeholder pattern), and a bound kind's line rewrite can erase an unbound
kind's pattern, so unbound patterns are not always left unchanged. -/
theorem replacePlaceholders_not_idempotent :
    (replacePlaceholders (replacePlaceholders (cs "[YourAPIKey]") pvSelfRef) pvSelfRef ≠
      replacePlaceholders (cs "[YourAPIKey]") pvSelfRef) ∧
    (containsSub pkSentinelQuoted apiLineWithPkSentinel = true ∧
      ({ api_key := cs "v" } : PlaceholderValues).private_key = [] ∧
      containsSub pkSentinelQuoted
        (replacePlaceholders apiLineWithPkSentinel { api_key := cs "v" }) = false) := by
  exact ⟨by decide, by decide, by decide, by decide⟩

/-! ## C10: classifier reduces to the language-tag membership test -/

/-- C10: an artifact is command-kind exactly when its tag is `bash`,
`shell`, `sh` or empty; the two phase filters are exact complements; and the
untagged content heuristic never changes the outcome because it implies the
empty tag, which the membership test already accepts. -/
theorem classifier_tag_membership (b : Block) :
    (commandBlockPred b = true ↔
      (b.language = cs "bash" ∨ b.language = cs "shell" ∨ b.language = cs "sh" ∨
        b.language = [])) ∧
    fileBlockPred b = !commandBlockPred b ∧
    (looksLikeCmd b = true → isBashOrShell b = true) := by
  refine ⟨?_, ?_, ?_⟩
  · simp only [commandBlockPred, isBashOrShell, looksLikeCmd, Bool.or_eq_true,
      Bool.and_eq_true, beq_iff_eq]
    tauto
  · simp [fileBlockPred, commandBlockPred, Bool.not_or]
  · intro h
    simp only [looksLikeCmd, Bool.and_eq_true, beq_iff_eq] at h
    simp [isBashOrShell, h.1]

/-- Witness for C10 at concrete blocks: an untagged `npm` block is
command-kind, and a `js` block's file filter is the negated command
filter. -/
theorem classifier_tag_membership_witness :
    commandBlockPred ⟨[], cs "npm i"⟩ = true ∧
    fileBlockPred ⟨cs "js", cs "x"⟩ = !commandBlockPred ⟨cs "js", cs "x"⟩ := by
  exact ⟨(classifier_tag_membership ⟨[], cs "npm i"⟩).1.mpr (by decide),
    (classifier_tag_membership ⟨cs "js", cs "x"⟩).2.1⟩

/-! ## C4: path containment -/

/-- C4 (amended): only when a project was detected and the filename is
relative does the materializer rewrite a `..`-traversing filename to its
base name (a segment without separators); at the project root it is used
as-is, in a project subdirectory it is re-anchored under the relative
prefix. -/
theorem path_containment_project_relative (rel f : List Char)
    (h1 : (cs "..").isPrefixOf f = true) (h2 : (cs "/").isPrefixOf f = false) :
    resolveTargetFilename true true rel f = basenameL f ∧
    resolveTargetFilename true false rel f =
      (if (cs "..").isPrefixOf rel then basenameL f else joinPath rel (basenameL f)) ∧
    '/' ∉ basenameL f := by
  refine ⟨?_, ?_, ?_⟩
  · simp [resolveTargetFilename, h1, h2]
  · by_cases hr : (cs "..").isPrefixOf rel <;> simp [resolveTargetFilename, h1, h2, hr]
  · intro hmem
    have hmem2 := List.mem_reverse.mp hmem
    have := List.mem_takeWhile_imp hmem2
    simp at this

/-- Witness for C4 at the spec's own example filename. -/
theorem path_containment_project_relative_witness :
    resolveTargetFilename true true [] (cs "../../etc/passwd") =
      basenameL (cs "../../etc/passwd") ∧
    '/' ∉ basenameL (cs "../../etc/passwd") := by
  have h := path_containment_project_relative [] (cs "../../etc/passwd")
    (by decide) (by decide)
  exact ⟨h.1, h.2.2⟩

/-- Counterexample for C4: with no project detected the traversing filename
passes through unchanged (the write escapes the working directory), and
inside a project an absolute filename is also left unchanged rather than
rewritten to its base name. -/
theorem path_containment_counterexample :
    resolveTargetFilename false true [] (cs "../../etc/passwd") = cs "../../etc/passwd" ∧
    resolveTargetFilename false true [] (cs "../../etc/passwd") ≠
      basenameL (cs "../../etc/passwd") ∧
    (cs "..").isPrefixOf (resolveTargetFilename false true [] (cs "../../etc/passwd")) =
      true ∧
    resolveTargetFilename true true [] (cs "/etc/passwd") = cs "/etc/passwd" ∧
    resolveTargetFilename true true [] (cs "/etc/passwd") ≠
      basenameL (cs "/etc/passwd") := by
  exact ⟨by decide, by decide, by decide, by decide, by decide⟩

/-! ## C7: the missing-module branch of the dependency-manager handler -/

/-- C7 (amended): when the error text matches none of the earlier branches
of `handleNpmErrors` (no permission signature, no missing-manifest
signature) and the module-name extraction succeeds, the handler issues
exactly `npm install <name> --save`. -/
theorem npm_missing_module_install (e m : List Char)
    (h1 : containsSub (cs "EACCES") e = false)
    (h2 : containsSub (cs "permission denied") e = false)
    (h3 : ¬(containsSub (cs "ENOENT") e = true ∧ containsSub (cs "package.json") e = true))
    (h4 : containsSub (cs "Cannot find module") e = true)
    (h5 : findModuleName e = some m) :
    npmFixCommands e = [cs "npm install " ++ m ++ cs " --save"] := by
  have h3b : (containsSub (cs "ENOENT") e && containsSub (cs "package.json") e) = false := by
    cases hE : containsSub (cs "ENOENT") e <;>
      cases hP : containsSub (cs "package.json") e <;> simp_all
  simp [npmFixCommands, h1, h2, h3b, h4, h5]

/-- The spec's scenario input: a `Cannot find module 'left-pad'` stderr. -/
def leftPadErr : List Char := cs "Cannot find module " ++ sqc :: cs "left-pad" ++ [sqc]

/-- Witness for C7: on the `left-pad` scenario the handler issues exactly
`npm install left-pad --save`. -/
theorem npm_missing_module_install_witness :
    npmFixCommands leftPadErr = [cs "npm install " ++ cs "left-pad" ++ cs " --save"] := by
  exact npm_missing_module_install leftPadErr (cs "left-pad") (by decide) (by decide)
    (by decide) (by decide) (by decide)

/-- An error text that names a missing module but also carries a permission
signature. -/
def leftPadPermErr : List Char :=
  cs "npm ERR! EACCES Cannot find module " ++ sqc :: cs "left-pad" ++ [sqc]

/-- Counterexample for C7: an error text containing
`Cannot find module 'left-pad'` that also matches the earlier permission
branch makes the handler run the permission fix, not the module install. -/
theorem npm_handler_precedence_counterexample :
    containsSub (cs "Cannot find module") leftPadPermErr = true ∧
    findModuleName leftPadPermErr = some (cs "left-pad") ∧
    npmFixCommands leftPadPermErr ≠ [cs "npm install " ++ cs "left-pad" ++ cs " --save"] ∧
    npmFixCommands leftPadPermErr =
      [cs "mkdir -p ~/.npm-global", cs "npm config set prefix ~/.npm-global",
        cs "npm install"] := by
  exact ⟨by decide, by decide, by decide, by decide⟩

/-! ## C5: placeholder prompting -/

theorem PlaceholderValues.get_set (pv : PlaceholderValues) (k k' : PKind) (v : List Char) :
    (pv.set k v).get k' = if k' = k then v else pv.get k' := by
  cases k <;> cases k' <;> simp [PlaceholderValues.get, PlaceholderValues.set]

theorem detectGo_nodup (oracle : PKind → List Char) (hor : ∀ k, oracle k ≠ [])
    (allCode aiResponse : List Char) :
    ∀ table pv prompts, (∀ k ∈ prompts, pv.get k ≠ []) → prompts.Nodup →
      (detectGo oracle allCode aiResponse table pv prompts).2.Nodup := by
  intro table
  induction table with
  | nil => intro pv prompts _ hnd; simpa [detectGo] using hnd
  | cons entry rest ih =>
    intro pv prompts hinv hnd
    obtain ⟨pats, k⟩ := entry
    by_cases ht : (containsAny pats allCode || containsAny pats aiResponse) = true
    · by_cases he : (pv.get k).isEmpty = true
      · have hknot : k ∉ prompts := by
          intro hk
          exact hinv k hk (List.isEmpty_iff.mp he)
        have hinv2 : ∀ k' ∈ prompts ++ [k], (pv.set k (oracle k)).get k' ≠ [] := by
          intro k' hk'
          rw [PlaceholderValues.get_set]
          by_cases hkk : k' = k
          · simpa [hkk] using hor k
          · simp only [hkk, if_false]
            rcases List.mem_append.mp hk' with h | h
            · exact hinv k' h
            · simp at h; exact absurd h hkk
        have hnd2 : (prompts ++ [k]).Nodup := by
          simp [List.nodup_append, hnd, hknot]
        have := ih (pv.set k (oracle k)) (prompts ++ [k]) hinv2 hnd2
        simpa [detectGo, ht, he] using this
      · have := ih pv prompts hinv hnd
        simpa [detectGo, ht, he] using this
    · have := ih pv prompts hinv hnd
      simpa [detectGo, ht] using this

/-- C5 (amended): `detectAndPromptForPlaceholders` prompts the operator at
most once per placeholder kind — the prompt list it produces never repeats a
kind, however many patterns of that kind match across the artifacts and the
prose.  (`attemptErrorResolution` never prompts at all, so this is the whole
session's prompting.)  The oracle models validated operator input, which the
source guarantees to be non-empty. -/
theorem placeholder_prompted_at_most_once (oracle : PKind → List Char)
    (hor : ∀ k, oracle k ≠ []) (aiResponse : List Char) (codeBlocks : List Block) :
    (detectAndPromptForPlaceholders oracle aiResponse codeBlocks).2.Nodup := by
  exact detectGo_nodup oracle hor _ aiResponse placeholderTable {} []
    (by intro k hk; simp at hk) (by simp)

/-- Witness for C5: a response mentioning the API-key placeholder twice and
the wallet placeholder once yields a duplicate-free prompt list. -/
theorem placeholder_prompted_at_most_once_witness :
    (detectAndPromptForPlaceholders (fun _ => cs "v")
      (cs "use [YourAPIKey] then [YourAPIKey] and [YourWalletAddress]") []).2.Nodup := by
  exact placeholder_prompted_at_most_once (fun _ => cs "v")
    (by intro k; show cs "v" ≠ []; decide)
    (cs "use [YourAPIKey] then [YourAPIKey] and [YourWalletAddress]") []

/-! ## Concrete environments for the remediation-loop claims -/

/-- A generation service that always proposes the same one-command fix. -/
def fixSol : List Char := cs "```bash\nnpm run fix\n```"

/-- Environment in which every command fails with the same `boom` message
and the generation service returns `fixSol` in every round. -/
def Efix : Env :=
  { ai := fun _ _ => some fixSol
    shell := fun _ => .fail (cs "boom")
    filenameFromSolution := fun _ => none
    hasEslintConfigJs := false
    hasEslintRcAny := false
    hasPackageJson := false
    packageJsonHasType := false
    fsExists := fun _ => false }

/-- Environment whose proposed fix carries an unresolved API-key
placeholder and whose shell accepts everything silently. -/
def E5 : Env :=
  { Efix with
    ai := fun _ _ => some (cs "```bash\necho [YourAPIKey]\n```")
    shell := fun _ => .ok [] [] }

/-- Counterexample for C5: during a remediation round the fix command
containing the API-key placeholder is passed to the shell verbatim — no
substitution with a bound value happens on that path, although substitution
with any binding would have changed the command. -/
theorem remediation_placeholder_unsubstituted :
    Event.ran (cs "echo [YourAPIKey]") ∈ (run E5 4 (.resolve (cs "x") (cs "y"))).1 ∧
    containsSub (cs "[YourAPIKey]") (cs "echo [YourAPIKey]") = true ∧
    replacePlaceholders (cs "echo [YourAPIKey]") { api_key := cs "abc" } ≠
      cs "echo [YourAPIKey]" := by
  exact ⟨by decide, by decide, by decide⟩

/-! ## C1: the hash-dedup check never fires, identical fixes are re-applied -/

/-- C1 (code bug): in a chain whose two rounds receive the byte-identical
fix proposal, the second round executes the proposal's command again — the
`attemptedSolutions` set is recreated empty on every call of
`attemptErrorResolution`, so the dedup test compares against the empty set
and the fallback escalation (`hashDedupHit`) is dead code. -/
theorem identical_fix_reapplied :
    (run Efix 7 (.resolve (cs "start") (cs "boom"))).1 =
      [Event.ran (cs "npm run fix"), Event.ran (cs "npm run fix")] ∧
    Event.hashDedupHit ∉ (run Efix 7 (.resolve (cs "start") (cs "boom"))).1 ∧
    Efix.ai (cs "start") (cs "boom") = Efix.ai (cs "npm run fix") (cs "boom") := by
  exact ⟨by decide, by decide, by decide⟩

/-! ## C2: command dedup does not span the session -/

/-- Counterexample for C2: a command executed (and failed) in the main
auto-process pass recurs in the remediation fix block and is passed to the
shell a second time — the `executedCommands` sets of
`autoProcessCodeBlocks` and `attemptErrorResolution` are separate locals. -/
theorem session_command_reexecuted :
    ranCmds (autoProcessCommands Efix 6 [⟨cs "bash", cs "npm run fix"⟩] {}).1 =
      [cs "npm run fix", cs "npm run fix"] ∧
    ¬ (ranCmds (autoProcessCommands Efix 6 [⟨cs "bash", cs "npm run fix"⟩] {}).1).Nodup := by
  exact ⟨by decide, by decide⟩

theorem cmdsOfActs_nil : cmdsOfActs [] = [] := rfl

theorem cmdsOfActs_note (e : Event) (as : List SessAction) :
    cmdsOfActs (.note e :: as) = cmdsOfActs as := rfl

theorem cmdsOfActs_write (n c : List Char) (as : List SessAction) :
    cmdsOfActs (.writeF n c :: as) = cmdsOfActs as := rfl

theorem cmdsOfActs_run (c : List Char) (as : List SessAction) :
    cmdsOfActs (.runCmd c :: as) = c :: cmdsOfActs as := rfl

theorem cmdsOfActs_append (as bs : List SessAction) :
    cmdsOfActs (as ++ bs) = cmdsOfActs as ++ cmdsOfActs bs :=
  List.filterMap_append _ _ _

theorem autoLineActs_spec (pv : PlaceholderValues) :
    ∀ ls acc,
      (∀ x ∈ cmdsOfActs (autoLineActs pv ls acc).1, x ∉ acc) ∧
      (cmdsOfActs (autoLineActs pv ls acc).1).Nodup ∧
      (∀ x, x ∈ (autoLineActs pv ls acc).2 ↔
        x ∈ cmdsOfActs (autoLineActs pv ls acc).1 ∨ x ∈ acc) := by
  intro ls
  induction ls with
  | nil => intro acc; simp [autoLineActs, cmdsOfActs_nil]
  | cons l ls ih =>
    intro acc
    by_cases h1 : (containsSub (cs "[YourPrivateKey") (replacePlaceholders l pv) ||
        containsSub (cs "your_actual_private_key_here") (replacePlaceholders l pv)) = true
    · rcases hrec : autoLineActs pv ls acc with ⟨as, acc2⟩
      have hA := (ih acc).1
      have hB := (ih acc).2.1
      have hC := (ih acc).2.2
      rw [hrec] at hA hB hC
      simp only [autoLineActs, if_pos h1, hrec, cmdsOfActs_note]
      exact ⟨hA, hB, hC⟩
    · by_cases h2 : replacePlaceholders l pv ∈ acc
      · rcases hrec : autoLineActs pv ls acc with ⟨as, acc2⟩
        have hA := (ih acc).1
        have hB := (ih acc).2.1
        have hC := (ih acc).2.2
        rw [hrec] at hA hB hC
        simp only [autoLineActs, if_neg h1, if_pos h2, hrec, cmdsOfActs_note]
        exact ⟨hA, hB, hC⟩
      · rcases hrec : autoLineActs pv ls (replacePlaceholders l pv :: acc) with ⟨as, acc2⟩
        have hA := (ih (replacePlaceholders l pv :: acc)).1
        have hB := (ih (replacePlaceholders l pv :: acc)).2.1
        have hC := (ih (replacePlaceholders l pv :: acc)).2.2
        rw [hrec] at hA hB hC
        simp only [autoLineActs, if_neg h1, if_neg h2, hrec, cmdsOfActs_run]
        refine ⟨?_, ?_, ?_⟩
        · intro x hx
          rcases List.mem_cons.mp hx with hx | hx
          · subst hx; exact h2
          · intro hacc
            exact hA x hx (List.mem_cons_of_mem _ hacc)
        · refine List.Nodup.cons ?_ hB
          intro hmem
          exact hA _ hmem (List.mem_cons_self _ _)
        · intro x
          have hCx := hC x
          constructor
          · intro hx
            rcases hCx.mp hx with hx2 | hx2
            · exact Or.inl (List.mem_cons_of_mem _ hx2)
            · rcases List.mem_cons.mp hx2 with hx3 | hx3
              · exact Or.inl (by simp [hx3])
              · exact Or.inr hx3
          · intro hx
            rcases hx with hx2 | hx2
            · rcases List.mem_cons.mp hx2 with hx3 | hx3
              · exact hCx.mpr (Or.inr (by simp [hx3]))
              · exact hCx.mpr (Or.inl hx3)
            · exact hCx.mpr (Or.inr (List.mem_cons_of_mem _ hx2))

theorem autoCmdActs_spec (pv : PlaceholderValues) :
    ∀ blocks acc,
      (∀ x ∈ cmdsOfActs (autoCmdActs pv blocks acc), x ∉ acc) ∧
      (cmdsOfActs (autoCmdActs pv blocks acc)).Nodup := by
  intro blocks
  induction blocks with
  | nil => intro acc; simp [autoCmdActs, cmdsOfActs_nil]
  | cons b bs ih =>
    intro acc
    by_cases hb : (containsSub (cs "sudo ") b.code || containsSub (cs "rm -rf") b.code) = true
    · have h := ih acc
      simpa only [autoCmdActs, if_pos hb, cmdsOfActs_note] using h
    · rcases hl : autoLineActs pv (cmdLines b.code) acc with ⟨as, acc2⟩
      have hA := (autoLineActs_spec pv (cmdLines b.code) acc).1
      have hB := (autoLineActs_spec pv (cmdLines b.code) acc).2.1
      have hC := (autoLineActs_spec pv (cmdLines b.code) acc).2.2
      rw [hl] at hA hB hC
      have ihA := (ih acc2).1
      have ihB := (ih acc2).2
      simp only [autoCmdActs, if_neg hb, hl, cmdsOfActs_append]
      refine ⟨?_, ?_⟩
      · intro x hx
        rcases List.mem_append.mp hx with hx | hx
        · exact hA x hx
        · intro hacc
          exact ihA x hx ((hC x).mpr (Or.inr hacc))
      · refine List.Nodup.append hB ihB ?_
        intro x hx hx2
        exact ihA x hx2 ((hC x).mpr (Or.inl hx))

/-- C2 (amended): within one `autoProcessCodeBlocks` invocation the command
phase never passes the same command string to the shell twice at its own
level — the commands it initiates are pairwise distinct.  (The dedup does
not extend across remediation rounds; see the counterexample.) -/
theorem autoProcess_command_dedup (pv : PlaceholderValues) (blocks : List Block) :
    (cmdsOfActs (autoCmdActs pv blocks [])).Nodup :=
  (autoCmdActs_spec pv blocks []).2

/-- Witness for C2's amended statement: a block repeating a command line
yields a duplicate-free initiation list. -/
theorem autoProcess_command_dedup_witness :
    (cmdsOfActs (autoCmdActs {} [⟨cs "bash", cs "npm i\nnpm i"⟩] [])).Nodup :=
  autoProcess_command_dedup {} [⟨cs "bash", cs "npm i\nnpm i"⟩]

/-! ## C6: the command safety gate -/

theorem autoLineActs_no_pk_token (pv : PlaceholderValues) :
    ∀ ls acc x, x ∈ cmdsOfActs (autoLineActs pv ls acc).1 →
      containsSub (cs "[YourPrivateKey") x = false ∧
        containsSub (cs "your_actual_private_key_here") x = false := by
  intro ls
  induction ls with
  | nil => intro acc x hx; simp [autoLineActs, cmdsOfActs_nil] at hx
  | cons l ls ih =>
    intro acc x hx
    by_cases h1 : (containsSub (cs "[YourPrivateKey") (replacePlaceholders l pv) ||
        containsSub (cs "your_actual_private_key_here") (replacePlaceholders l pv)) = true
    · rcases hrec : autoLineActs pv ls acc with ⟨as, acc2⟩
      rw [autoLineActs, if_pos h1] at hx
      simp only [hrec, cmdsOfActs_note] at hx
      have := ih acc x
      rw [hrec] at this
      exact this hx
    · by_cases h2 : replacePlaceholders l pv ∈ acc
      · rcases hrec : autoLineActs pv ls acc with ⟨as, acc2⟩
        rw [autoLineActs, if_neg h1, if_pos h2] at hx
        simp only [hrec, cmdsOfActs_note] at hx
        have := ih acc x
        rw [hrec] at this
        exact this hx
      · rcases hrec : autoLineActs pv ls (replacePlaceholders l pv :: acc) with ⟨as, acc2⟩
        rw [autoLineActs, if_neg h1, if_neg h2] at hx
        simp only [hrec, cmdsOfActs_run] at hx
        rcases List.mem_cons.mp hx with hx2 | hx2
        · subst hx2
          have h1b : (containsSub (cs "[YourPrivateKey") (replacePlaceholders l pv) ||
              containsSub (cs "your_actual_private_key_here")
                (replacePlaceholders l pv)) = false := by
            simpa using h1
          exact ⟨(Bool.or_eq_false_iff.mp h1b).1, (Bool.or_eq_false_iff.mp h1b).2⟩
        · have := ih (replacePlaceholders l pv :: acc) x
          rw [hrec] at this
          exact this hx2

theorem autoCmdActs_no_pk_token (pv : PlaceholderValues) :
    ∀ blocks acc x, x ∈ cmdsOfActs (autoCmdActs pv blocks acc) →
      containsSub (cs "[YourPrivateKey") x = false ∧
        containsSub (cs "your_actual_private_key_here") x = false := by
  intro blocks
  induction blocks with
  | nil => intro acc x hx; simp [autoCmdActs, cmdsOfActs_nil] at hx
  | cons b bs ih =>
    intro acc x hx
    by_cases hb : (containsSub (cs "sudo ") b.code || containsSub (cs "rm -rf") b.code) = true
    · rw [autoCmdActs, if_pos hb, cmdsOfActs_note] at hx
      exact ih acc x hx
    · rcases hl : autoLineActs pv (cmdLines b.code) acc with ⟨as, acc2⟩
      rw [autoCmdActs, if_neg hb] at hx
      simp only [hl, cmdsOfActs_append] at hx
      rcases List.mem_append.mp hx with hx2 | hx2
      · have := autoLineActs_no_pk_token pv (cmdLines b.code) acc x
        rw [hl] at this
        exact this hx2
      · exact ih acc2 x hx2

theorem autoCmdActs_filter_safe (pv : PlaceholderValues) :
    ∀ blocks acc, cmdsOfActs (autoCmdActs pv blocks acc) =
      cmdsOfActs (autoCmdActs pv
        (blocks.filter
          (fun b => !(containsSub (cs "sudo ") b.code || containsSub (cs "rm -rf") b.code)))
        acc) := by
  intro blocks
  induction blocks with
  | nil => intro acc; rfl
  | cons b bs ih =>
    intro acc
    by_cases hb : (containsSub (cs "sudo ") b.code || containsSub (cs "rm -rf") b.code) = true
    · rw [autoCmdActs, if_pos hb, cmdsOfActs_note]
      rw [List.filter_cons_of_neg (by simp [hb])]
      exact ih acc
    · have hb2 : (containsSub (cs "sudo ") b.code ||
          containsSub (cs "rm -rf") b.code) = false := by simpa using hb
      rw [List.filter_cons_of_pos (by simp [hb2])]
      rw [autoCmdActs, if_neg hb, autoCmdActs, if_neg hb]
      rcases hl : autoLineActs pv (cmdLines b.code) acc with ⟨as, acc2⟩
      simp only [cmdsOfActs_append, ih acc2]

/-- The block of the spec's safety scenario. -/
def sudoBlock : Block := ⟨cs "bash", cs "sudo rm -rf /"⟩

/-- C6 (amended): the safety gate skips every block containing a superuser
or recursive forced-delete invocation (the commands actually initiated are
exactly those of the safe blocks), and a command line still carrying a
private-key placeholder token after substitution is never initiated.  On the
spec's scenario `sudo rm -rf /` the trace is the skip notice alone, no
command reaches the shell, and the failed-command counter stays 0.  (The
gate does not cover the other placeholder kinds; see the counterexample.) -/
theorem command_safety_gate :
    (∀ pv blocks, cmdsOfActs (autoCmdActs pv blocks []) =
      cmdsOfActs (autoCmdActs pv
        (blocks.filter
          (fun b => !(containsSub (cs "sudo ") b.code || containsSub (cs "rm -rf") b.code)))
        [])) ∧
    (∀ pv blocks x, x ∈ cmdsOfActs (autoCmdActs pv blocks []) →
      containsSub (cs "[YourPrivateKey") x = false ∧
        containsSub (cs "your_actual_private_key_here") x = false) ∧
    (∀ E pv, (autoProcessCommands E 5 [sudoBlock] pv).1 =
        [Event.skippedDanger (cs "sudo rm -rf /")] ∧
      failedRanCount E (autoProcessCommands E 5 [sudoBlock] pv).1 = 0) := by
  refine ⟨fun pv blocks => autoCmdActs_filter_safe pv blocks [],
    fun pv blocks x hx => autoCmdActs_no_pk_token pv blocks [] x hx,
    fun E pv => ⟨rfl, rfl⟩⟩

/-- Witness for C6 at concrete inputs: dropping a gated block leaves the
initiated commands unchanged, a surviving command is private-key-token free,
and the scenario trace is the single skip notice with a zero failure
count. -/
theorem command_safety_gate_witness :
    cmdsOfActs (autoCmdActs {} [sudoBlock, ⟨cs "bash", cs "ls"⟩] []) =
      cmdsOfActs (autoCmdActs {}
        ([sudoBlock, ⟨cs "bash", cs "ls"⟩].filter
          (fun b => !(containsSub (cs "sudo ") b.code || containsSub (cs "rm -rf") b.code)))
        []) ∧
    containsSub (cs "[YourPrivateKey") (cs "ls") = false ∧
    (autoProcessCommands E5 5 [sudoBlock] {}).1 =
      [Event.skippedDanger (cs "sudo rm -rf /")] := by
  refine ⟨command_safety_gate.1 {} [sudoBlock, ⟨cs "bash", cs "ls"⟩], ?_,
    (command_safety_gate.2.2 E5 {}).1⟩
  exact (command_safety_gate.2.1 {} [⟨cs "bash", cs "ls"⟩] (cs "ls") (by decide)).1

/-- Counterexample for C6: a command carrying an unresolved API-key
placeholder token is not skipped — it is initiated although no binding for
`api_key` exists, so the gate does not cover "a placeholder token of any
kind". -/
theorem placeholder_gate_api_key_executed :
    cmdsOfActs (autoCmdActs {} [⟨cs "bash", cs "echo [YourAPIKey]"⟩] []) =
      [cs "echo [YourAPIKey]"] ∧
    containsSub (cs "[YourAPIKey]") (cs "echo [YourAPIKey]") = true ∧
    PlaceholderValues.api_key {} = [] := by
  exact ⟨by decide, by decide, by decide⟩

/-! ## C3: the resolution loop does not terminate -/

theorem fixSol_blocks : extractCodeBlocks fixSol = [⟨cs "bash", cs "npm run fix"⟩] := by
  decide

theorem fixSol_acts :
    fixActs (inferFixFilename Efix fixSol) [⟨cs "bash", cs "npm run fix"⟩] [] =
      [SessAction.runCmd (cs "npm run fix")] := by
  decide

theorem runEfix_none : ∀ n,
    (∀ c, (run Efix n (.exec c)).2 = none) ∧
    (∀ c e, (run Efix n (.resolve c e)).2 = none) ∧
    (∀ b fc, (run Efix n (.acts b fc [SessAction.runCmd (cs "npm run fix")])).2 = none) := by
  intro n
  induction n with
  | zero => exact ⟨fun _ => rfl, fun _ _ => rfl, fun _ _ => rfl⟩
  | succ n ih =>
    obtain ⟨ihe, ihr, iha⟩ := ih
    refine ⟨?_, ?_, ?_⟩
    · intro c
      have h := ihr c (cs "boom")
      simp only [run, show Efix.shell c = ShellRes.fail (cs "boom") from rfl, h]
    · intro c e
      have h := iha true c
      simp only [run, show Efix.ai c e = some fixSol from rfl, fixSol_blocks, fixSol_acts,
        List.isEmpty_cons, Bool.false_eq_true, if_false, h, List.contains_nil]
    · intro b fc
      have h := ihe (cs "npm run fix")
      simp only [run, h]

/-- C3 (code bug): there is an input — a command that always fails with the
same error while the generation service keeps proposing the same
one-command fix — on which the error-resolution chain never reaches a
terminal state: for every recursion-depth budget the interpreter still runs
out of fuel, so the number of command executions grows without bound.
(`executeCommand` and `attemptErrorResolution` are mutually recursive and
their dedup sets are per-call locals, so nothing bounds the loop.) -/
theorem resolution_loop_never_terminates :
    ∀ n, (run Efix n (.resolve (cs "start") (cs "boom"))).2 = none := by
  intro n
  exact (runEfix_none n).2.1 (cs "start") (cs "boom")

/-! ## C9: the Artifact Parser -/

theorem dropWhile_head_false {p : Char → Bool} :
    ∀ (l : List Char) {x : Char} {xs : List Char}, l.dropWhile p = x :: xs → p x = false := by
  intro l
  induction l with
  | nil => intro x xs h; simp [List.dropWhile] at h
  | cons c rest ih =>
    intro x xs h
    rw [List.dropWhile_cons] at h
    by_cases hc : p c = true
    · rw [if_pos hc] at h; exact ih h
    · rw [if_neg hc] at h
      cases h
      simpa using hc

theorem dropWhile_of_head_false {p : Char → Bool} :
    ∀ l : List Char, (∀ x xs, l = x :: xs → p x = false) → l.dropWhile p = l := by
  intro l h
  cases l with
  | nil => rfl
  | cons c rest => rw [List.dropWhile_cons, if_neg (by simp [h c rest rfl])]

theorem dropWhile_getLast? {p : Char → Bool} :
    ∀ l : List Char, l.dropWhile p ≠ [] → (l.dropWhile p).getLast? = l.getLast? := by
  intro l
  induction l with
  | nil => intro h; simp [List.dropWhile] at h
  | cons c rest ih =>
    intro h
    rw [List.dropWhile_cons] at h ⊢
    by_cases hc : p c = true
    · rw [if_pos hc] at h ⊢
      have hrest : rest ≠ [] := by
        intro h0; rw [h0] at h; simp [List.dropWhile] at h
      cases rest with
      | nil => exact absurd rfl hrest
      | cons d ds => rw [ih h, List.getLast?_cons_cons]
    · rw [if_neg hc]

theorem dropWhile_dropWhile {p : Char → Bool} :
    ∀ l : List Char, (l.dropWhile p).dropWhile p = l.dropWhile p := by
  intro l
  induction l with
  | nil => rfl
  | cons c rest ih =>
    rw [List.dropWhile_cons]
    by_cases hc : p c = true
    · rw [if_pos hc]; exact ih
    · rw [if_neg hc, List.dropWhile_cons, if_neg hc]

theorem trimL_idem (s : List Char) : trimL (trimL s) = trimL s := by
  unfold trimL
  have h1 : (((s.dropWhile isJsWS).reverse.dropWhile isJsWS).reverse).dropWhile isJsWS =
      ((s.dropWhile isJsWS).reverse.dropWhile isJsWS).reverse := by
    apply dropWhile_of_head_false
    intro x xs hx
    have hBne : (s.dropWhile isJsWS).reverse.dropWhile isJsWS ≠ [] := by
      intro h0; rw [h0] at hx; simp at hx
    have hlast : ((s.dropWhile isJsWS).reverse.dropWhile isJsWS).getLast? = some x := by
      have hh : (((s.dropWhile isJsWS).reverse.dropWhile isJsWS).reverse).head? = some x := by
        rw [hx]; rfl
      rwa [List.head?_reverse] at hh
    rw [dropWhile_getLast? _ hBne, List.getLast?_reverse] at hlast
    cases hA : s.dropWhile isJsWS with
    | nil => rw [hA] at hlast; simp at hlast
    | cons y ys =>
      rw [hA] at hlast
      simp only [List.head?_cons, Option.some.injEq] at hlast
      have := dropWhile_head_false s hA
      rwa [hlast] at this
  rw [h1, List.reverse_reverse, dropWhile_dropWhile]

theorem findClose_len :
    ∀ s content rest2, findClose s = some (content, rest2) → rest2.length + 3 ≤ s.length := by
  intro s
  induction s with
  | nil => intro a b h; simp [findClose] at h
  | cons c r ih =>
    intro a b h
    rw [findClose] at h
    by_cases hp : (cs "```").isPrefixOf (c :: r) = true
    · rw [if_pos hp] at h
      simp only [Option.some.injEq, Prod.mk.injEq] at h
      have hlen : (cs "```").length ≤ (c :: r).length :=
        (List.isPrefixOf_iff_prefix.mp hp).length_le
      simp only [List.drop_succ_cons] at h
      rw [← h.2]
      simp only [List.length_cons, List.length_drop]
      simp [cs] at hlen
      omega
    · rw [if_neg hp] at h
      cases hfc : findClose r with
      | none => rw [hfc] at h; simp at h
      | some ab =>
        rw [hfc] at h
        obtain ⟨a2, b2⟩ := ab
        simp only [Option.some.injEq, Prod.mk.injEq] at h
        have := ih a2 b2 hfc
        rw [← h.2]
        simp only [List.length_cons]
        omega

theorem scanGo_mem_code :
    ∀ f pos s x, x ∈ scanGo f pos s → trimL x.2.code = x.2.code ∧ x.2.code ≠ [] := by
  intro f
  induction f with
  | zero => intro pos s x hx; simp [scanGo] at hx
  | succ f ih =>
    intro pos s x hx
    cases s with
    | nil => simp [scanGo] at hx
    | cons c rest =>
      rw [scanGo] at hx
      dsimp only at hx
      split at hx
      · split at hx
        · rename_i heq
          split at hx
          · rename_i content rest2 hfc
            rcases List.mem_append.mp hx with hx2 | hx2
            · split at hx2
              · simp at hx2
              · rename_i hne
                simp only [List.mem_singleton] at hx2
                subst hx2
                refine ⟨trimL_idem content, ?_⟩
                simpa [List.isEmpty_iff] using hne
            · exact ih _ _ x hx2
          · exact ih _ _ x hx
        · exact ih _ _ x hx
      · exact ih _ _ x hx

theorem scanGo_pos_lb :
    ∀ f pos s x, x ∈ scanGo f pos s → pos ≤ x.1 := by
  intro f
  induction f with
  | zero => intro pos s x hx; simp [scanGo] at hx
  | succ f ih =>
    intro pos s x hx
    cases s with
    | nil => simp [scanGo] at hx
    | cons c rest =>
      rw [scanGo] at hx
      dsimp only at hx
      split at hx
      · split at hx
        · split at hx
          · rcases List.mem_append.mp hx with hx2 | hx2
            · split at hx2
              · simp at hx2
              · simp only [List.mem_singleton] at hx2
                subst hx2
                exact Nat.le_refl _
            · have := ih _ _ x hx2
              omega
          · have := ih _ _ x hx; omega
        · have := ih _ _ x hx; omega
      · have := ih _ _ x hx; omega

theorem scanGo_sorted :
    ∀ f pos s, (scanGo f pos s).Pairwise (fun a b => a.1 < b.1) := by
  intro f
  induction f with
  | zero => intro pos s; simp [scanGo]
  | succ f ih =>
    intro pos s
    cases s with
    | nil => simp [scanGo]
    | cons c rest =>
      rw [scanGo]
      dsimp only
      split
      · rename_i hp
        split
        · rename_i after2 body heq
          split
          · rename_i content rest2 hfc
            split
            · simpa using ih _ _
            · rename_i hne
              simp only [List.singleton_append]
              refine List.Pairwise.cons ?_ (ih _ _)
              intro y hy
              have hlb := scanGo_pos_lb f _ _ y hy
              -- consumed is at least 1
              have hlen1 : rest2.length + 3 ≤ body.length := findClose_len _ _ _ hfc
              have hlen2 : (List.takeWhile Char.isAlphanum (List.drop 3 (c :: rest))).length +
                  (body.length + 1) = (List.drop 3 (c :: rest)).length := by
                have := congrArg List.length heq
                simp only [List.length_drop, List.length_cons] at this ⊢
                omega
              have hlen3 : (List.drop 3 (c :: rest)).length = (c :: rest).length - 3 :=
                List.length_drop ..
              simp only [List.length_cons] at hlen3
              have hcc : (c :: rest).length = rest.length + 1 := by simp
              omega
          · exact ih _ _
        · exact ih _ _
      · exact ih _ _

theorem takeWhile_append_elem {p : Char → Bool} :
    ∀ (a : List Char) (b : Char) (l : List Char),
      (∀ x ∈ a, p x = true) → p b = false → (a ++ b :: l).takeWhile p = a := by
  intro a
  induction a with
  | nil => intro b l _ hb; simp [List.takeWhile_cons, hb]
  | cons c a2 ih =>
    intro b l ha hb
    simp only [List.cons_append, List.takeWhile_cons, ha c (List.mem_cons_self c a2), if_pos]
    rw [ih b l (fun x hx => ha x (List.mem_cons_of_mem _ hx)) hb]

theorem fence_prefix_head (x : Char) (l : List Char) (hx : x ≠ bq) :
    (cs "```").isPrefixOf (x :: l) = false := by
  have h3 : cs "```" = [bq, bq, bq] := by decide
  rw [h3]
  cases hbe : bq == x with
  | false => simp [List.isPrefixOf, hbe]
  | true => exact absurd (beq_iff_eq.mp hbe).symm hx

theorem containsSub_fence_append (a b : List Char) (ha : ∀ x ∈ a, x ≠ bq)
    (hb : containsSub (cs "```") b = false) : containsSub (cs "```") (a ++ b) = false := by
  induction a with
  | nil => simpa using hb
  | cons c a2 ih =>
    have h1 := fence_prefix_head c (a2 ++ b) (ha c (List.mem_cons_self c a2))
    have h2 := ih (fun x hx => ha x (List.mem_cons_of_mem _ hx))
    simp only [List.cons_append, containsSub, List.append_eq]
    rw [h1, h2]
    rfl

theorem findClose_none (r : List Char) (h : containsSub (cs "```") r = false) :
    findClose r = none := by
  induction r with
  | nil => rfl
  | cons c rest ih =>
    obtain ⟨h1, h2⟩ := containsSub_cons_false h
    rw [findClose, if_neg (by simp [h1]), ih h2]

theorem scanGo_no_fence :
    ∀ f pos s, containsSub (cs "```") s = false → scanGo f pos s = [] := by
  intro f
  induction f with
  | zero => intro pos s _; rfl
  | succ f ih =>
    intro pos s h
    cases s with
    | nil => rfl
    | cons c rest =>
      obtain ⟨h1, h2⟩ := containsSub_cons_false h
      rw [scanGo, if_neg (by simp [h1])]
      exact ih _ _ h2

theorem extractCodeBlocks_unterminated (tag r : List Char)
    (htag : ∀ x ∈ tag, Char.isAlphanum x = true)
    (hr : containsSub (cs "```") r = false) :
    extractCodeBlocks (cs "```" ++ tag ++ '\n' :: r) = [] := by
  have h3 : cs "```" = [bq, bq, bq] := by decide
  have hbqa : Char.isAlphanum bq = false := by decide
  have htagbq : ∀ x ∈ tag, x ≠ bq := by
    intro x hx he
    have := htag x hx
    rw [he, hbqa] at this
    exact Bool.false_ne_true this
  have hcons : cs "```" ++ tag ++ '\n' :: r = bq :: bq :: bq :: (tag ++ '\n' :: r) := by
    rw [h3]; simp
  have hvpref : ∀ (w : List Char), (bq :: w).isPrefixOf (tag ++ '\n' :: r) = false := by
    intro w
    cases tag with
    | nil =>
      have : (bq == '\n') = false := by decide
      simp [List.isPrefixOf, this]
    | cons t ts =>
      have ht : (bq == t) = false := by
        refine beq_eq_false_iff_ne.mpr ?_
        intro he
        exact htagbq t (List.mem_cons_self t ts) he.symm
      simp [List.isPrefixOf, ht]
  have htailfree : containsSub (cs "```") (bq :: bq :: (tag ++ '\n' :: r)) = false := by
    have hv : containsSub (cs "```") (tag ++ '\n' :: r) = false := by
      refine containsSub_fence_append tag ('\n' :: r) htagbq ?_
      have hnl : ('\n' : Char) ≠ bq := by decide
      simp only [containsSub, fence_prefix_head '\n' r hnl, hr]
      rfl
    have hp1 : (cs "```").isPrefixOf (bq :: bq :: (tag ++ '\n' :: r)) = false := by
      rw [h3]
      simp only [List.isPrefixOf]
      rw [hvpref [ ]]
      simp
    have hp2 : (cs "```").isPrefixOf (bq :: (tag ++ '\n' :: r)) = false := by
      rw [h3]
      simp only [List.isPrefixOf]
      rw [hvpref [bq]]
      simp
    simp only [containsSub, hp1, hp2, hv]
    rfl
  rw [extractCodeBlocks, extractCodeBlocksPos]
  rw [hcons]
  rw [show (bq :: bq :: bq :: (tag ++ '\n' :: r)).length =
    (tag ++ '\n' :: r).length + 3 from by simp]
  rw [scanGo]
  rw [if_pos (by rw [h3]; simp [List.isPrefixOf])]
  dsimp only
  rw [show List.drop 3 (bq :: bq :: bq :: (tag ++ '\n' :: r)) = tag ++ '\n' :: r from rfl]
  rw [takeWhile_append_elem tag '\n' r htag (by decide)]
  rw [List.drop_left]
  split
  · rename_i body heq
    obtain rfl : r = body := by
      injection heq
    rw [findClose_none r hr, scanGo_no_fence _ _ _ htailfree]
    rfl
  · rename_i hne
    exact absurd rfl (hne r)

/-- C9: the Artifact Parser returns blocks in left-to-right source order
(strictly increasing match positions), never returns a block whose content
is empty after trimming (contents are trimmed and non-empty), produces
nothing for a fence that is never closed, and is deterministic. -/
theorem extractCodeBlocks_spec :
    (∀ s b, b ∈ extractCodeBlocks s → trimL b.code = b.code ∧ b.code ≠ []) ∧
    (∀ s, (extractCodeBlocksPos s).Pairwise (fun a b => a.1 < b.1) ∧
      extractCodeBlocks s = (extractCodeBlocksPos s).map Prod.snd) ∧
    (∀ tag r, (∀ x ∈ tag, Char.isAlphanum x = true) →
      containsSub (cs "```") r = false →
      extractCodeBlocks (cs "```" ++ tag ++ '\n' :: r) = []) ∧
    (∀ s t, s = t → extractCodeBlocks s = extractCodeBlocks t) := by
  refine ⟨?_, ?_, extractCodeBlocks_unterminated, ?_⟩
  · intro s b hb
    rw [extractCodeBlocks, extractCodeBlocksPos] at hb
    obtain ⟨x, hx, rfl⟩ := List.mem_map.mp hb
    exact scanGo_mem_code _ _ _ x hx
  · intro s
    exact ⟨scanGo_sorted _ _ _, rfl⟩
  · intro s t h
    rw [h]

/-- Witness for C9 at concrete inputs: a parsed block's content is trimmed
and non-empty, the positions of a two-block text are strictly increasing,
and an unterminated `bash` fence yields no artifact. -/
theorem extractCodeBlocks_spec_witness :
    (trimL (cs "npm i") = cs "npm i" ∧ cs "npm i" ≠ []) ∧
    (extractCodeBlocksPos (cs "a```bash\nx\n```b```js\ny\n```")).Pairwise
      (fun a b => a.1 < b.1) ∧
    extractCodeBlocks (cs "```bash\nhello world") = [] := by
  refine ⟨?_, (extractCodeBlocks_spec.2.1 _).1, ?_⟩
  · exact extractCodeBlocks_spec.1 (cs "```bash\nnpm i\n```") ⟨cs "bash", cs "npm i"⟩
      (by decide)
  · have h := extractCodeBlocks_spec.2.2.1 (cs "bash") (cs "hello world")
      (by decide) (by decide)
    have he : cs "```" ++ cs "bash" ++ '\n' :: cs "hello world" =
        cs "```bash\nhello world" := by decide
    rwa [he] at h
